import Mathlib

/-!
Verification of the wallpaper selection subsystem of the slideshow-qs
repository: the metadata store (wallpaper_metadata.py), the filter chain
(filters/) and the selection strategies (strategies/), shallowly embedded
in Lean.  Image identifiers are modelled as an abstract type with decidable
equality (canonical path strings where the Python code compares `str(w)`
against string sets, namely in the metadata-backed filters).  Python lists
are Lean lists; Python dicts are association lists with unique keys;
`random.choice` / `random.shuffle` nondeterminism is exposed as an index
stream / shuffling-function parameter that theorems quantify over.
-/

/-- Python `set(a) == set(b)` on two lists: mutual membership. -/
def sameSet {I : Type} [DecidableEq I] (a b : List I) : Bool :=
  a.all (fun x => decide (x ∈ b)) && b.all (fun x => decide (x ∈ a))

/-- Python `datetime.time` restricted to hour and minute, as used by
`WallpaperMetadata.parse_time`.  Comparison is lexicographic. -/
structure TimeOfDay where
  hour : Nat
  minute : Nat
deriving DecidableEq, Repr

/-- Lexicographic order on times of day, the order Python places on
`datetime.time` values compared with the `<=` operator. -/
def timeLe (a b : TimeOfDay) : Bool :=
  decide (a.hour < b.hour) || (decide (a.hour = b.hour) && decide (a.minute ≤ b.minute))

/-- Python `time_str.split(':')` on the string's characters: split into
the (possibly empty) groups between colons. -/
def splitOnColon (s : List Char) : List (List Char) :=
  s.foldr (fun c acc =>
    if c = ':' then [] :: acc
    else match acc with
      | [] => [[c]]
      | g :: gs => (c :: g) :: gs) [[]]

/-- Python `int(...)` on one split part, restricted to the plain decimal
numerals the schedule files carry: all-digit strings parse, anything else
(empty part, sign, letters) is a `ValueError`, i.e. `none`. -/
def digitsToNat? (cs : List Char) : Option Nat :=
  if cs = [] then none
  else
    cs.foldl (fun acc c =>
      match acc with
      | some n => if '0' ≤ c ∧ c ≤ '9' then some (10 * n + (c.toNat - '0'.toNat)) else none
      | none => none) (some 0)

/-- Embedding of `WallpaperMetadata.parse_time`: split on colons, convert
both parts to integers and build a `time`; any failure (wrong arity,
non-numeric part, out-of-range hour or minute, for which the Python `time`
constructor raises) is caught and yields `time(0, 0)`. -/
def parseTime (timeStr : String) : TimeOfDay :=
  match splitOnColon timeStr.data with
  | [h, m] =>
    match digitsToNat? h, digitsToNat? m with
    | some hh, some mm => if hh ≤ 23 && mm ≤ 59 then ⟨hh, mm⟩ else ⟨0, 0⟩
    | _, _ => ⟨0, 0⟩
  | _ => ⟨0, 0⟩

/-- Embedding of `WallpaperMetadata.is_time_in_range`: a range with
`start <= end` contains `t` when `start <= t <= end`; a range with
`start > end` wraps past midnight and contains `t` when
`t >= start or t <= end`. -/
def isTimeInRange (currentTime : TimeOfDay) (startStr endStr : String) : Bool :=
  let s := parseTime startStr
  let e := parseTime endStr
  if timeLe s e then timeLe s currentTime && timeLe currentTime e
  else timeLe s currentTime || timeLe currentTime e

/-- One metadata record (`wallpaper_metadata.json` entry).  Only the fields
read by the embedded operations are modelled: `classification` (absent keys
default to `'medium'` at each read site), `manual_override` (absent defaults
to `False`) and `hash` (absent defaults to `None`).  Provenance fields
(`luminosity`, `override_date`, timestamps, colors, tags) are never read by
the selection logic and are omitted. -/
structure WallRecord where
  classification : Option String := none
  manual_override : Bool := false
  hash : Option String := none
deriving DecidableEq, Repr

/-- The metadata store's in-memory dict: path string to record. -/
abbrev MetaMap := List (String × WallRecord)

/-- One entry of a schedule's `time_ranges` list.  The source dict keys are
`'start'` and `'end'`; the second field is named `stop` because `end` is a
Lean keyword. -/
structure TimeRange where
  start : String
  stop : String
deriving DecidableEq, Repr

/-- One classification's schedule: `enabled` (absent defaults to `True`)
and its list of time ranges (absent defaults to `[]`). -/
structure Schedule where
  enabled : Bool := true
  time_ranges : List TimeRange := []
deriving DecidableEq, Repr

/-- The `time_schedules.json` dict: classification name to schedule. -/
abbrev ScheduleMap := List (String × Schedule)

/-- Embedding of `WallpaperMetadata.get_active_classifications`: collect
every classification whose schedule is enabled and has at least one time
range containing the given time (the Python loop appends on the first
matching range and breaks, which is exactly an existence test). -/
def getActiveClassifications (schedules : ScheduleMap) (currentTime : TimeOfDay) :
    List String :=
  (schedules.filter (fun kv =>
    kv.2.enabled && kv.2.time_ranges.any (fun r => isTimeInRange currentTime r.start r.stop))).map
    (fun kv => kv.1)

/-- Embedding of `WallpaperMetadata.get_wallpapers_for_current_time`,
without the 15-minute-bucket result cache (a pure recomputation, which is
what the source computes whenever the cache is cold or expired): if no
classification is active, all known image keys; otherwise the keys whose
classification (defaulting to `'medium'`) is in the active set. -/
def getWallpapersForCurrentTime (metadata : MetaMap) (schedules : ScheduleMap)
    (currentTime : TimeOfDay) : List String :=
  let active := getActiveClassifications schedules currentTime
  if active = [] then metadata.map (fun kv => kv.1)
  else
    (metadata.filter (fun kv =>
      decide ((kv.2.classification.getD "medium") ∈ active))).map (fun kv => kv.1)

/-- Embedding of `WallpaperMetadata.override_classification`: if the path
has a record, set its classification and raise the `manual_override` flag
(the source also stamps `override_date`, a provenance field not modelled);
otherwise do nothing. -/
def overrideClassification (metadata : MetaMap) (path cls : String) : MetaMap :=
  if (metadata.lookup path).isSome then
    metadata.map (fun kv =>
      if kv.1 = path then (kv.1, { kv.2 with classification := some cls, manual_override := true })
      else kv)
  else metadata

/-- Embedding of `WallpaperMetadata.needs_analysis`: a missing record needs
analysis; a changed file hash needs analysis; otherwise (hash unchanged) no
re-analysis happens, whether or not the record is manually overridden. -/
def needsAnalysis (metadata : MetaMap) (path fileHash : String) : Bool :=
  match metadata.lookup path with
  | none => true
  | some d =>
    if d.hash ≠ some fileHash then true
    else if d.manual_override then false
    else false

/-- Embedding of the metadata-handling core of
`WallpaperAnalyzer.analyze_directory`, the repository's bulk re-analysis
pass: for each image file found in the directory, keep the image's
existing record when existing metadata was passed in and that record has
`manual_override` set (the skip branch the docstring describes as
preserving manual overrides); otherwise store `analyze_wallpaper`'s fresh
output, which always carries `manual_override: False`.  The thread pool
only parallelizes the per-file work; the resulting path-keyed mapping is
as modelled.  `needs_analysis` is consulted nowhere.  The `fast_analyze.py`
standalone script applies the same per-file decision. -/
def analyzeDirectory (imageFiles : List String) (existingMetadata : Option MetaMap)
    (analyze : String → WallRecord) : MetaMap :=
  imageFiles.map (fun path =>
    match existingMetadata with
    | some existing =>
      match existing.lookup path with
      | some record =>
        if record.manual_override then (path, record) else (path, analyze path)
      | none => (path, analyze path)
    | none => (path, analyze path))

/-- Python `dict.update` on the store's path-keyed dict, as performed by
`WallpaperMetadata.update_batch_metadata`: keys present in `updates` take
the new value in place, keys absent from `base` are appended. -/
def dictUpdate (base updates : MetaMap) : MetaMap :=
  base.map (fun kv =>
    match updates.lookup kv.1 with
    | some v => (kv.1, v)
    | none => kv) ++
  updates.filter (fun kv => decide (base.lookup kv.1 = none))

/-- Embedding of `WallpaperManager.analyze_wallpapers`, the in-app bulk
re-analysis entry point: it calls `analyze_directory` WITHOUT passing the
store's existing metadata (`wallpaper_manager.py` line 499), so the
override-preserving skip branch never fires, and merges the non-empty
result into the store via `update_batch_metadata`. -/
def analyzeWallpapers (imageFiles : List String) (analyze : String → WallRecord)
    (metadata : MetaMap) : MetaMap :=
  let results := analyzeDirectory imageFiles none analyze
  if results = [] then metadata else dictUpdate metadata results

/-- Outcome of opening, reading and JSON-parsing the persisted metadata
document, the external persistence collaborator, split by the Python
exception each failure raises: the file may be absent (guarded before
opening), unreadable (`IOError` while opening or reading), valid UTF-8
text that is not valid JSON (`json.JSONDecodeError`), bytes that are not
valid UTF-8 (text-mode reading inside `json.load` raises
`UnicodeDecodeError`, a `ValueError` that is not a `JSONDecodeError`),
nested beyond the recursion limit (`RecursionError`), or a well-formed
document. -/
inductive LoadOutcome where
  | missing
  | ioError
  | jsonDecodeError
  | unicodeDecodeError
  | recursionError
  | ok (doc : MetaMap)
deriving DecidableEq

/-- The exceptions that escape `load_metadata`: its `except` clause names
only `json.JSONDecodeError` and `IOError`, so these two propagate to the
caller (store construction). -/
inductive PyExn where
  | unicodeDecodeError
  | recursionError
deriving DecidableEq

/-- Embedding of `WallpaperMetadata.load_metadata`: a missing file yields
the empty dict without opening; `json.JSONDecodeError` and `IOError` are
caught and yield the empty dict; a `UnicodeDecodeError` or
`RecursionError` raised inside the `try` block matches neither handler and
propagates; a well-formed document is returned as-is. -/
def loadMetadata : LoadOutcome → Except PyExn MetaMap
  | .missing => .ok []
  | .ioError => .ok []
  | .jsonDecodeError => .ok []
  | .unicodeDecodeError => .error .unicodeDecodeError
  | .recursionError => .error .recursionError
  | .ok doc => .ok doc

/-- Embedding of `ExclusionFilter.apply_filter`: with no exclusions pass
through; otherwise drop excluded identifiers, and if that empties the list
return the original list unchanged. -/
def exclusionFilter (excluded : List String) (wallpapers : List String) : List String :=
  if excluded = [] then wallpapers
  else
    let filtered := wallpapers.filter (fun w => decide (w ∉ excluded))
    if filtered = [] then wallpapers else filtered

/-- Embedding of `TimeBasedFilter.apply_filter`: passthrough when the
context flag is off; otherwise intersect with the metadata store's images
for the current time, falling back to the unfiltered input when the
suitable set, or the intersection, is empty. -/
def timeBasedFilter (metadata : MetaMap) (schedules : ScheduleMap)
    (timeBasedEnabled : Bool) (currentTime : TimeOfDay)
    (wallpapers : List String) : List String :=
  if !timeBasedEnabled then wallpapers
  else
    let suitable := getWallpapersForCurrentTime metadata schedules currentTime
    if suitable = [] then wallpapers
    else
      let filtered := wallpapers.filter (fun w => decide (w ∈ suitable))
      if filtered = [] then wallpapers else filtered

/-- Embedding of `LuminosityFilter.apply_filter`: passthrough when the
requested value is absent, empty or `'all'`; otherwise keep images whose
stored classification (default `'medium'`) equals the request, including
recordless images exactly when the request is `'medium'`; empty result
falls back to the unfiltered input. -/
def luminosityFilter (metadata : MetaMap) (lumFilter : Option String)
    (wallpapers : List String) : List String :=
  match lumFilter with
  | none => wallpapers
  | some lf =>
    if lf = "" ∨ lf = "all" then wallpapers
    else
      let filtered := wallpapers.filter (fun w =>
        match metadata.lookup w with
        | some d => decide (d.classification.getD "medium" = lf)
        | none => decide (lf = "medium"))
      if filtered = [] then wallpapers else filtered

/-- Embedding of `RecentFilter.apply_filter`: passthrough when the context
flag is off or the recent list is empty; otherwise drop recent identifiers,
falling back to the unfiltered input when nothing survives. -/
def recentFilter (filterRecent : Bool) (recentWallpapers : List String)
    (wallpapers : List String) : List String :=
  if !filterRecent then wallpapers
  else if recentWallpapers = [] then wallpapers
  else
    let filtered := wallpapers.filter (fun w => decide (w ∉ recentWallpapers))
    if filtered = [] then wallpapers else filtered

/-- Internal state of `SmartRandomStrategy`: the unused pool, the bounded
recent FIFO, the shown-history log and the recomputed recent cap.  `reset`
initializes all lists empty and `max_recent` to 0. -/
structure SmartState (I : Type) where
  unused_wallpapers : List I
  recent_wallpapers : List I
  session_history : List I
  max_recent : Nat
deriving DecidableEq, Repr

/-- State after `SmartRandomStrategy.reset`. -/
def smartReset {I : Type} : SmartState I := ⟨[], [], [], 0⟩

/-- The reinitialization of the unused list in `select` step 1: a copy of
the candidate list with the context's current wallpaper removed (first
occurrence) when present. -/
def smartReinit {I : Type} [DecidableEq I] (wallpapers : List I) (cur : Option I) : List I :=
  match cur with
  | some c => wallpapers.erase c
  | none => wallpapers

/-- The recent cap recomputed by `select`:
`max(1, len(wallpapers) * avoid_percentage // 100)`. -/
def smartMaxRecent (avoidPercentage n : Nat) : Nat :=
  max 1 (n * avoidPercentage / 100)

/-- The deterministic prefix of `SmartRandomStrategy.select`: reinitialize
the unused list if it is empty or its set differs from the candidate set,
recompute `max_recent`, and compute the `available` pool through the three
fallbacks (unused minus recent, then unused, then candidates minus the
current wallpaper).  Returns the pool `random.choice` draws from together
with the mutated state. -/
def smartSelectStep {I : Type} [DecidableEq I] (avoidPercentage : Nat) (s : SmartState I)
    (wallpapers : List I) (cur : Option I) : List I × SmartState I :=
  let unused :=
    if s.unused_wallpapers = [] ∨ ¬ sameSet s.unused_wallpapers wallpapers then
      smartReinit wallpapers cur
    else s.unused_wallpapers
  let m := smartMaxRecent avoidPercentage wallpapers.length
  let avail := unused.filter (fun w => decide (w ∉ s.recent_wallpapers))
  let avail2 := if avail = [] then unused else avail
  let avail3 :=
    if avail2 = [] then
      match cur with
      | some c => wallpapers.filter (fun w => decide (w ≠ c))
      | none => wallpapers
    else avail2
  (avail3, { s with unused_wallpapers := unused, max_recent := m })

/-- Embedding of `SmartRandomStrategy.select`.  `idx` supplies the index
`random.choice` would draw at each attempt (taken modulo the pool size);
`fuel` bounds the source's unbounded recursive retry on a validation
failure (with all candidates valid a call never recurses, so every theorem
here is fuel-independent).  On a validation failure the chosen item is
removed from the unused list and from the local pool; the call recurses
when the shrunken pool is non-empty and returns `none` otherwise. -/
def smartSelect {I : Type} [DecidableEq I] [Inhabited I] (avoidPercentage : Nat)
    (valid : I → Bool) (fuel : Nat) (idx : Nat → Nat) (s : SmartState I)
    (wallpapers : List I) (cur : Option I) : Option I × SmartState I :=
  if wallpapers = [] then (none, s)
  else
    let step := smartSelectStep avoidPercentage s wallpapers cur
    let avail := step.1
    let s1 := step.2
    if avail = [] then (none, s1)
    else
      let chosen := avail.getD (idx 0 % avail.length) default
      if valid chosen then (some chosen, s1)
      else
        let s2 := { s1 with unused_wallpapers := s1.unused_wallpapers.erase chosen }
        let avail2 := avail.erase chosen
        if avail2 = [] then (none, s2)
        else
          match fuel with
          | 0 => (none, s2)
          | fuel' + 1 => smartSelect avoidPercentage valid fuel' (fun n => idx (n + 1)) s2 wallpapers cur

/-- Embedding of `SmartRandomStrategy.update_tracking`: append to the
session history unless already logged; remove the wallpaper from the unused
list (first occurrence, if present); move it to the back of the recent
list; pop one element from the front if the recent list now exceeds
`max_recent`.  The source's trailing "reset unused if all shown" branch
assigns `[]` to an already-empty list and is a no-op. -/
def smartUpdate {I : Type} [DecidableEq I] (s : SmartState I) (w : I) : SmartState I :=
  let history := if w ∈ s.session_history then s.session_history else s.session_history ++ [w]
  let unused := s.unused_wallpapers.erase w
  let recent1 :=
    (if w ∈ s.recent_wallpapers then s.recent_wallpapers.erase w else s.recent_wallpapers) ++ [w]
  let recent2 := if s.max_recent < recent1.length then recent1.tail else recent1
  ⟨unused, recent2, history, s.max_recent⟩

/-- Driver for consecutive Smart Random selections against a fixed
candidate list: each step provides the choice index and the context's
current wallpaper; a successful `select` is followed by `update_tracking`
of the returned image.  Returns the picks in order, or `none` as soon as a
`select` fails. -/
def runSmart {I : Type} [DecidableEq I] [Inhabited I] (avoidPercentage : Nat)
    (valid : I → Bool) (wallpapers : List I) :
    SmartState I → List (Nat × Option I) → Option (List I × SmartState I)
  | s, [] => some ([], s)
  | s, step :: rest =>
    match smartSelect avoidPercentage valid 0 (fun _ => step.1) s wallpapers step.2 with
    | (some w, s1) =>
      match runSmart avoidPercentage valid wallpapers (smartUpdate s1 w) rest with
      | some (picks, sf) => some (w :: picks, sf)
      | none => none
    | (none, _) => none

/-- Internal state of `SequentialShuffleStrategy`: the remaining shuffled
queue, the shown-history log and the candidate snapshot the queue was built
from. -/
structure SeqState (I : Type) where
  shuffled_queue : List I
  session_history : List I
  current_cycle : List I
deriving DecidableEq, Repr

/-- State after `SequentialShuffleStrategy.reset`. -/
def seqReset {I : Type} : SeqState I := ⟨[], [], []⟩

/-- The anti-repeat rotation: if the queue's first element equals the given
wallpaper, move it to the back (`queue.append(queue.pop(0))`). -/
def rotateIfEq {I : Type} [DecidableEq I] (q : List I) (c : I) : List I :=
  match q with
  | [] => []
  | h :: t => if h = c then t ++ [h] else h :: t

/-- Queue rebuild when the candidate set changed: shuffle a copy of the
candidates and rotate the context's current wallpaper off the front. -/
def seqRebuildChanged {I : Type} [DecidableEq I] (wallpapers : List I)
    (shuffle : List I → List I) (cur : Option I) : List I :=
  let q := shuffle wallpapers
  match cur with
  | some c => rotateIfEq q c
  | none => q

/-- Queue rebuild when the cycle is exhausted: shuffle a copy of the
candidates and rotate the last shown wallpaper (the history's last entry,
when the history is non-empty) off the front. -/
def seqRebuildEmpty {I : Type} [DecidableEq I] (wallpapers : List I)
    (shuffle : List I → List I) (history : List I) : List I :=
  let q := shuffle wallpapers
  match history.getLast? with
  | some lastShown => rotateIfEq q lastShown
  | none => q

/-- The final loop of `SequentialShuffleStrategy.select`: peek the front of
the queue, popping and discarding invalid entries, returning the first
valid entry (left on the queue) or `none` if the queue runs out. -/
def popUntilValid {I : Type} (valid : I → Bool) : List I → Option I × List I
  | [] => (none, [])
  | h :: t => if valid h then (some h, h :: t) else popUntilValid valid t

/-- Embedding of `SequentialShuffleStrategy.select`.  `shuffle` stands for
`random.shuffle` (theorems quantify over it, constrained to produce
permutations); at most one of the two rebuild branches fires per call when
`shuffle` permutes, so a single shuffling function per call is faithful. -/
def seqSelect {I : Type} [DecidableEq I] (valid : I → Bool) (s : SeqState I)
    (wallpapers : List I) (cur : Option I) (shuffle : List I → List I) :
    Option I × SeqState I :=
  if wallpapers = [] then (none, s)
  else
    let s1 :=
      if ¬ sameSet s.current_cycle wallpapers then
        { s with shuffled_queue := seqRebuildChanged wallpapers shuffle cur,
                 current_cycle := wallpapers }
      else s
    let s2 :=
      if s1.shuffled_queue = [] then
        { s1 with shuffled_queue := seqRebuildEmpty wallpapers shuffle s1.session_history,
                  current_cycle := wallpapers }
      else s1
    let scan := popUntilValid valid s2.shuffled_queue
    (scan.1, { s2 with shuffled_queue := scan.2 })

/-- Embedding of `SequentialShuffleStrategy.update_tracking`: remove the
shown wallpaper from the queue (first occurrence, if present) and append it
to the session history unless already logged. -/
def seqUpdate {I : Type} [DecidableEq I] (s : SeqState I) (w : I) : SeqState I :=
  { shuffled_queue := s.shuffled_queue.erase w,
    session_history := if w ∈ s.session_history then s.session_history else s.session_history ++ [w],
    current_cycle := s.current_cycle }

/-- Driver for consecutive Sequential Shuffle selections against a fixed
candidate list: each step provides the call's shuffling function and the
context's current wallpaper; a successful `select` is followed by
`update_tracking` of the returned image. -/
def runSeq {I : Type} [DecidableEq I] (valid : I → Bool) (wallpapers : List I) :
    SeqState I → List ((List I → List I) × Option I) → Option (List I × SeqState I)
  | s, [] => some ([], s)
  | s, step :: rest =>
    match seqSelect valid s wallpapers step.2 step.1 with
    | (some w, s1) =>
      match runSeq valid wallpapers (seqUpdate s1 w) rest with
      | some (picks, sf) => some (w :: picks, sf)
      | none => none
    | (none, _) => none

/-- Internal state of `PureRandomStrategy`: only the shown-history log. -/
structure PureState (I : Type) where
  session_history : List I
deriving DecidableEq, Repr

/-- Embedding of `PureRandomStrategy.update_tracking`: append to the
session history unless already logged. -/
def pureUpdate {I : Type} [DecidableEq I] (s : PureState I) (w : I) : PureState I :=
  ⟨if w ∈ s.session_history then s.session_history else s.session_history ++ [w]⟩

/-- Internal state of `TimeBasedStrategy`: its own shown-history log plus
the wrapped inner strategy's state (`α`); the cache timestamp, untouched by
`update_tracking`, is not modelled. -/
structure TimeState (I α : Type) where
  session_history : List I
  inner : α

/-- Embedding of `TimeBasedStrategy.update_tracking`: append to its own
session history unless already logged, and forward to the inner strategy's
`update_tracking` (`innerUpd`). -/
def timeUpdate {I α : Type} [DecidableEq I] (innerUpd : α → I → α)
    (s : TimeState I α) (w : I) : TimeState I α :=
  ⟨if w ∈ s.session_history then s.session_history else s.session_history ++ [w],
   innerUpd s.inner w⟩

/-- Fallback shape shared by all four filters: an if-empty-then-original
result is non-empty whenever the original list is. -/
theorem fallback_ne_nil {α : Type} [DecidableEq α] (orig filtered : List α) (h : orig ≠ []) :
    (if filtered = [] then orig else filtered) ≠ [] := by
  split
  · exact h
  · assumption

/-- C1.  Every filter in the chain preserves non-emptiness: on a non-empty
candidate list, each of exclusion, time-based, luminosity and recency
filtering returns a non-empty list for every configuration, metadata store,
schedule set and context, the original input being returned whenever the
filter's own narrowing would leave nothing. -/
theorem spec_c1 (wallpapers : List String) (hw : wallpapers ≠ []) :
    (∀ excluded, exclusionFilter excluded wallpapers ≠ []) ∧
    (∀ metadata schedules enabled t,
      timeBasedFilter metadata schedules enabled t wallpapers ≠ []) ∧
    (∀ metadata lumFilter, luminosityFilter metadata lumFilter wallpapers ≠ []) ∧
    (∀ filterRecent recentWallpapers,
      recentFilter filterRecent recentWallpapers wallpapers ≠ []) := by
  refine ⟨fun excluded => ?_, fun metadata schedules enabled t => ?_,
    fun metadata lumFilter => ?_, fun filterRecent recentWallpapers => ?_⟩
  · unfold exclusionFilter
    split
    · exact hw
    · exact fallback_ne_nil _ _ hw
  · unfold timeBasedFilter
    split
    · exact hw
    · dsimp only
      split
      · exact hw
      · exact fallback_ne_nil _ _ hw
  · unfold luminosityFilter
    match lumFilter with
    | none => exact hw
    | some lf =>
      simp only
      split
      · exact hw
      · exact fallback_ne_nil _ _ hw
  · unfold recentFilter
    split
    · exact hw
    · split
      · exact hw
      · exact fallback_ne_nil _ _ hw

/-- Witness for C1 at a concrete singleton candidate list with contexts
that would each naively empty it. -/
theorem spec_c1_witness :
    exclusionFilter ["a"] ["a"] ≠ [] ∧
    timeBasedFilter [] [] true ⟨12, 0⟩ ["a"] ≠ [] ∧
    luminosityFilter [] (some "dark") ["a"] ≠ [] ∧
    recentFilter true ["a"] ["a"] ≠ [] :=
  ⟨(spec_c1 ["a"] (by decide)).1 ["a"],
   (spec_c1 ["a"] (by decide)).2.1 [] [] true ⟨12, 0⟩,
   (spec_c1 ["a"] (by decide)).2.2.1 [] (some "dark"),
   (spec_c1 ["a"] (by decide)).2.2.2 true ["a"]⟩

/-- C4.  Behaviour of `images_for_time`: when no classification is active
at the given time (in particular when every schedule is disabled) it
returns all known image keys, and when some classification is active it
returns exactly the keys whose stored classification (defaulting to
`'medium'` when absent) lies in the active set. -/
theorem spec_c4 (metadata : MetaMap) (schedules : ScheduleMap) (t : TimeOfDay) :
    (getActiveClassifications schedules t = [] →
      getWallpapersForCurrentTime metadata schedules t = metadata.map (fun kv => kv.1)) ∧
    (getActiveClassifications schedules t ≠ [] →
      getWallpapersForCurrentTime metadata schedules t =
        (metadata.filter (fun kv =>
          decide ((kv.2.classification.getD "medium") ∈
            getActiveClassifications schedules t))).map (fun kv => kv.1)) ∧
    ((∀ kv ∈ schedules, kv.2.enabled = false) →
      getWallpapersForCurrentTime metadata schedules t = metadata.map (fun kv => kv.1)) := by
  have hdis : (∀ kv ∈ schedules, kv.2.enabled = false) →
      getActiveClassifications schedules t = [] := by
    intro hall
    unfold getActiveClassifications
    rw [List.map_eq_nil_iff, List.filter_eq_nil_iff]
    intro kv hkv
    rw [hall kv hkv]
    simp
  refine ⟨fun h => ?_, fun h => ?_, fun hall => ?_⟩
  · unfold getWallpapersForCurrentTime
    rw [if_pos h]
  · unfold getWallpapersForCurrentTime
    rw [if_neg h]
  · unfold getWallpapersForCurrentTime
    rw [if_pos (hdis hall)]

/-- Witness for C4: a store with one dark and one light image, under fully
disabled schedules (all images returned) and under a schedule making
`dark` active at 23:00 (only the dark image returned). -/
theorem spec_c4_witness :
    getWallpapersForCurrentTime
      [("d", ⟨some "dark", false, none⟩), ("l", ⟨some "light", false, none⟩)]
      [("dark", ⟨false, [⟨"20:00", "06:00"⟩]⟩)] ⟨23, 0⟩ = ["d", "l"] ∧
    getWallpapersForCurrentTime
      [("d", ⟨some "dark", false, none⟩), ("l", ⟨some "light", false, none⟩)]
      [("dark", ⟨true, [⟨"20:00", "06:00"⟩]⟩)] ⟨23, 0⟩ = ["d"] := by
  constructor
  · have h := (spec_c4
      [("d", ⟨some "dark", false, none⟩), ("l", ⟨some "light", false, none⟩)]
      [("dark", ⟨false, [⟨"20:00", "06:00"⟩]⟩)] ⟨23, 0⟩).2.2 (by decide)
    rw [h]
    decide
  · have h := (spec_c4
      [("d", ⟨some "dark", false, none⟩), ("l", ⟨some "light", false, none⟩)]
      [("dark", ⟨true, [⟨"20:00", "06:00"⟩]⟩)] ⟨23, 0⟩).2.1 (by decide)
    rw [h]
    decide

/-- C5.  Midnight-wrapping containment, exactly as the source computes it:
a range matches `t` iff either `start <= end` and `start <= t <= end`, or
`start > end` (i.e. not `start <= end` in the total lexicographic order)
and `t >= start` or `t <= end`; `timeLe` is total, so failing `start <= end`
is the same as `start > end`.  Concretely the range 20:00-06:00 matches
23:30 and 01:00 and does not match 12:00. -/
theorem spec_c5 :
    (∀ (t : TimeOfDay) (startStr endStr : String),
      isTimeInRange t startStr endStr = true ↔
        ((timeLe (parseTime startStr) (parseTime endStr) = true ∧
          timeLe (parseTime startStr) t = true ∧ timeLe t (parseTime endStr) = true) ∨
         (timeLe (parseTime startStr) (parseTime endStr) = false ∧
          (timeLe (parseTime startStr) t = true ∨ timeLe t (parseTime endStr) = true)))) ∧
    (∀ a b : TimeOfDay, timeLe a b = true ∨ timeLe b a = true) ∧
    isTimeInRange ⟨23, 30⟩ "20:00" "06:00" = true ∧
    isTimeInRange ⟨1, 0⟩ "20:00" "06:00" = true ∧
    isTimeInRange ⟨12, 0⟩ "20:00" "06:00" = false := by
  refine ⟨fun t startStr endStr => ?_, fun a b => ?_, by decide, by decide, by decide⟩
  · unfold isTimeInRange
    dsimp only
    split
    · simp_all
    · simp_all [Bool.or_eq_true]
  · unfold timeLe
    rcases Nat.lt_trichotomy a.hour b.hour with h | h | h
    · simp [h]
    · rcases Nat.le_total a.minute b.minute with hm | hm
      · simp [h, hm]
      · simp [h, hm]
    · simp [h]

/-- C9.  Evaluation of `load_metadata` over the outcomes of its `try`
block: a missing file and the two caught exception classes
(`json.JSONDecodeError`, `IOError`) degrade to the empty store and a
well-formed document is returned as-is, but a malformed file whose bytes
are not valid UTF-8 raises `UnicodeDecodeError` — caught by neither
handler — and a pathologically nested one `RecursionError`, both of which
propagate out of the load, contradicting the claim that a malformed or
unreadable document always yields an empty map rather than an error. -/
theorem spec_c9 :
    loadMetadata LoadOutcome.missing = Except.ok [] ∧
    loadMetadata LoadOutcome.ioError = Except.ok [] ∧
    loadMetadata LoadOutcome.jsonDecodeError = Except.ok [] ∧
    (∀ doc, loadMetadata (LoadOutcome.ok doc) = Except.ok doc) ∧
    loadMetadata LoadOutcome.unicodeDecodeError = Except.error PyExn.unicodeDecodeError ∧
    loadMetadata LoadOutcome.recursionError = Except.error PyExn.recursionError :=
  ⟨rfl, rfl, rfl, fun _ => rfl, rfl, rfl⟩

/-- The guarded history append shared by every strategy's
`update_tracking` keeps the log duplicate-free. -/
theorem condAppend_nodup {I : Type} [DecidableEq I] (h : List I) (w : I) (hnd : h.Nodup) :
    (if w ∈ h then h else h ++ [w]).Nodup := by
  split
  · exact hnd
  · next hw => simp [List.nodup_append, hnd, hw]

/-- The guarded history append puts a newly logged image at the back. -/
theorem condAppend_getLast {I : Type} [DecidableEq I] (h : List I) (w : I) (hw : w ∉ h) :
    (if w ∈ h then h else h ++ [w]).getLast? = some w := by
  rw [if_neg hw]
  simp

/-- C10.  For each of the four strategies, `update_tracking` appends the
shown image to the session-history log only when it is not yet logged:
the log after the call is the old log when the image was already logged
and the old log with the image at the back otherwise; consequently a
duplicate-free log stays duplicate-free, and a newly logged image becomes
the log's last element. -/
theorem spec_c10 {I : Type} [DecidableEq I] {α : Type} (innerUpd : α → I → α)
    (sp : PureState I) (ss : SmartState I) (sq : SeqState I) (st : TimeState I α) (w : I) :
    ((pureUpdate sp w).session_history =
        (if w ∈ sp.session_history then sp.session_history else sp.session_history ++ [w]) ∧
      (sp.session_history.Nodup → (pureUpdate sp w).session_history.Nodup) ∧
      (w ∉ sp.session_history → (pureUpdate sp w).session_history.getLast? = some w)) ∧
    ((smartUpdate ss w).session_history =
        (if w ∈ ss.session_history then ss.session_history else ss.session_history ++ [w]) ∧
      (ss.session_history.Nodup → (smartUpdate ss w).session_history.Nodup) ∧
      (w ∉ ss.session_history → (smartUpdate ss w).session_history.getLast? = some w)) ∧
    ((seqUpdate sq w).session_history =
        (if w ∈ sq.session_history then sq.session_history else sq.session_history ++ [w]) ∧
      (sq.session_history.Nodup → (seqUpdate sq w).session_history.Nodup) ∧
      (w ∉ sq.session_history → (seqUpdate sq w).session_history.getLast? = some w)) ∧
    ((timeUpdate innerUpd st w).session_history =
        (if w ∈ st.session_history then st.session_history else st.session_history ++ [w]) ∧
      (st.session_history.Nodup → (timeUpdate innerUpd st w).session_history.Nodup) ∧
      (w ∉ st.session_history → (timeUpdate innerUpd st w).session_history.getLast? = some w)) :=
  ⟨⟨rfl, condAppend_nodup _ w, condAppend_getLast _ w⟩,
   ⟨rfl, condAppend_nodup _ w, condAppend_getLast _ w⟩,
   ⟨rfl, condAppend_nodup _ w, condAppend_getLast _ w⟩,
   ⟨rfl, condAppend_nodup _ w, condAppend_getLast _ w⟩⟩

/-- Witness for C10 at concrete states: a first `update_tracking` of 7
logs it at the back of each strategy's history, a second one with the
already-logged 5 leaves each log unchanged and duplicate-free. -/
theorem spec_c10_witness :
    ((pureUpdate (⟨[5]⟩ : PureState Nat) 7).session_history =
        (if 7 ∈ [5] then [5] else [5] ++ [7]) ∧
      (pureUpdate (⟨[5]⟩ : PureState Nat) 7).session_history.getLast? = some 7) ∧
    ((smartUpdate (⟨[], [], [5], 1⟩ : SmartState Nat) 5).session_history =
        (if 5 ∈ [5] then [5] else [5] ++ [5]) ∧
      (smartUpdate (⟨[], [], [5], 1⟩ : SmartState Nat) 5).session_history.Nodup) ∧
    (seqUpdate (⟨[], [5], []⟩ : SeqState Nat) 7).session_history.getLast? = some 7 ∧
    (timeUpdate (fun (u : Unit) _ => u) (⟨[5], ()⟩ : TimeState Nat Unit) 7).session_history =
      [5, 7] := by
  have hp := spec_c10 (fun (u : Unit) _ => u) (⟨[5]⟩ : PureState Nat)
    (⟨[], [], [5], 1⟩ : SmartState Nat) (⟨[], [5], []⟩ : SeqState Nat)
    (⟨[5], ()⟩ : TimeState Nat Unit) 7
  have hp5 := spec_c10 (fun (u : Unit) _ => u) (⟨[5]⟩ : PureState Nat)
    (⟨[], [], [5], 1⟩ : SmartState Nat) (⟨[], [5], []⟩ : SeqState Nat)
    (⟨[5], ()⟩ : TimeState Nat Unit) 5
  refine ⟨⟨hp.1.1, hp.1.2.2 (by decide)⟩,
    ⟨hp5.2.1.1, hp5.2.1.2.1 (by decide)⟩,
    hp.2.2.1.2.2 (by decide), ?_⟩
  rw [hp.2.2.2.1]
  decide

/-- Projection facts about the deterministic prefix of Smart Random's
`select`: it rewrites only the unused pool and the recent cap. -/
theorem smartSelectStep_recent {I : Type} [DecidableEq I] (p : Nat) (s : SmartState I)
    (wallpapers : List I) (cur : Option I) :
    (smartSelectStep p s wallpapers cur).2.recent_wallpapers = s.recent_wallpapers := rfl

/-- The deterministic prefix of Smart Random's `select` leaves the session
history untouched. -/
theorem smartSelectStep_history {I : Type} [DecidableEq I] (p : Nat) (s : SmartState I)
    (wallpapers : List I) (cur : Option I) :
    (smartSelectStep p s wallpapers cur).2.session_history = s.session_history := rfl

/-- C6 counterexample.  The claim that `select` never mutates internal
state fails on the code: on a fresh Smart Random strategy a single
successful `select` over the one-candidate list `[0]` succeeds and leaves a
state (unused pool `[0]`, recent cap 1) different from the reset state it
started from, because `select` itself reinitializes the unused pool and
recomputes `max_recent`. -/
theorem spec_c6_counterexample :
    (smartSelect 25 (fun _ => true) 0 (fun _ => 0) smartReset [0] none).1 = some 0 ∧
    (smartSelect 25 (fun _ => true) 0 (fun _ => 0) smartReset [0] none).2 ≠
      (smartReset : SmartState Nat) := by
  constructor
  · decide
  · decide

/-- C6 as amended.  Smart Random's `select` may rewrite the cycle
bookkeeping (the unused pool and the recent cap) and Sequential Shuffle's
`select` may rebuild its queue and cycle snapshot, but neither ever touches
the recent FIFO or the shown-history log: those fields change only in
`update_tracking` (or through reset / state restoration). -/
theorem spec_c6 {I : Type} [DecidableEq I] [Inhabited I] (p : Nat) (valid : I → Bool)
    (fuel : Nat) (idx : Nat → Nat) (s : SmartState I) (sq : SeqState I)
    (wallpapers : List I) (cur : Option I) (shuffle : List I → List I) :
    ((smartSelect p valid fuel idx s wallpapers cur).2.recent_wallpapers =
        s.recent_wallpapers ∧
      (smartSelect p valid fuel idx s wallpapers cur).2.session_history =
        s.session_history) ∧
    (seqSelect valid sq wallpapers cur shuffle).2.session_history = sq.session_history := by
  constructor
  · induction fuel generalizing idx s with
    | zero =>
      rw [smartSelect]
      split
      · exact ⟨rfl, rfl⟩
      · dsimp only
        split
        · exact ⟨smartSelectStep_recent p s wallpapers cur,
            smartSelectStep_history p s wallpapers cur⟩
        · split
          · exact ⟨smartSelectStep_recent p s wallpapers cur,
              smartSelectStep_history p s wallpapers cur⟩
          · split
            · exact ⟨smartSelectStep_recent p s wallpapers cur,
                smartSelectStep_history p s wallpapers cur⟩
            · exact ⟨smartSelectStep_recent p s wallpapers cur,
                smartSelectStep_history p s wallpapers cur⟩
    | succ fuel ih =>
      rw [smartSelect]
      split
      · exact ⟨rfl, rfl⟩
      · dsimp only
        split
        · exact ⟨smartSelectStep_recent p s wallpapers cur,
            smartSelectStep_history p s wallpapers cur⟩
        · split
          · exact ⟨smartSelectStep_recent p s wallpapers cur,
              smartSelectStep_history p s wallpapers cur⟩
          · split
            · exact ⟨smartSelectStep_recent p s wallpapers cur,
                smartSelectStep_history p s wallpapers cur⟩
            · refine ⟨?_, ?_⟩
              · rw [(ih _ _).1]
                exact smartSelectStep_recent p s wallpapers cur
              · rw [(ih _ _).2]
                exact smartSelectStep_history p s wallpapers cur
  · unfold seqSelect
    split
    · rfl
    · dsimp only
      split <;> split <;> rfl

/-- C7 counterexample.  The claim that `update_tracking` trims the recent
list until it is within the current `max_recent` fails on the code, which
pops at most one front element per call.  Concretely, starting from reset
with `avoid_recent_percentage = 50`: two selections over the four
candidates 0,1,2,3 (recent cap 2) fill the recent list with `[0, 1]`; the
candidate list then shrinks to `[2, 3]`, so the next `select` lowers
`max_recent` to 1, and the following `update_tracking` of the pick 2 leaves
the recent list `[1, 2]` of length 2, exceeding `max_recent = 1`. -/
theorem spec_c7_counterexample :
    smartSelect 50 (fun _ => true) 0 (fun _ => 0) smartReset [0, 1, 2, 3] none =
      (some 0, ⟨[0, 1, 2, 3], [], [], 2⟩) ∧
    smartUpdate (⟨[0, 1, 2, 3], [], [], 2⟩ : SmartState Nat) 0 = ⟨[1, 2, 3], [0], [0], 2⟩ ∧
    smartSelect 50 (fun _ => true) 0 (fun _ => 0) (⟨[1, 2, 3], [0], [0], 2⟩ : SmartState Nat)
      [0, 1, 2, 3] none = (some 1, ⟨[0, 1, 2, 3], [0], [0], 2⟩) ∧
    smartUpdate (⟨[0, 1, 2, 3], [0], [0], 2⟩ : SmartState Nat) 1 =
      ⟨[0, 2, 3], [0, 1], [0, 1], 2⟩ ∧
    smartSelect 50 (fun _ => true) 0 (fun _ => 0) (⟨[0, 2, 3], [0, 1], [0, 1], 2⟩ : SmartState Nat)
      [2, 3] none = (some 2, ⟨[2, 3], [0, 1], [0, 1], 1⟩) ∧
    smartUpdate (⟨[2, 3], [0, 1], [0, 1], 1⟩ : SmartState Nat) 2 = ⟨[3], [1, 2], [0, 1, 2], 1⟩ ∧
    2 > 1 := by
  refine ⟨by decide, by decide, by decide, by decide, by decide, by decide, by decide⟩

/-- One-pop trimming of a list ending in `w` keeps `w` at the back as
long as the cap is at least 1. -/
theorem trim_getLast {I : Type} (l' : List I) (w : I) (m : Nat) (hm : 1 ≤ m) :
    (if m < (l' ++ [w]).length then (l' ++ [w]).tail else l' ++ [w]).getLast? = some w := by
  cases l' with
  | nil =>
    rw [if_neg (by simp; omega)]
    simp
  | cons x xs =>
    split
    · simp
    · rw [List.getLast?_append_of_ne_nil]
      · simp
      · simp

/-- One-pop trimming of a list ending in `w` stays within the cap provided
the prefix already did. -/
theorem trim_length {I : Type} (l' : List I) (w : I) (m : Nat) (hl : l'.length ≤ m) :
    (if m < (l' ++ [w]).length then (l' ++ [w]).tail else l' ++ [w]).length ≤ m := by
  split
  · next hlt =>
    simp only [List.length_tail, List.length_append, List.length_cons, List.length_nil]
    omega
  · next hle =>
    simp only [List.length_append, List.length_cons, List.length_nil] at hle ⊢
    omega

/-- The conditional erase at the head of `update_tracking`'s recent-list
rewrite never lengthens the list. -/
theorem condErase_length_le {I : Type} [DecidableEq I] (l : List I) (w : I) :
    (if w ∈ l then l.erase w else l).length ≤ l.length := by
  split
  · exact List.length_erase_le w l
  · exact Nat.le_refl _

/-- C7 as amended.  After `update_tracking(chosen)`: the chosen image is
removed from the unused pool (and, when the pool is duplicate-free, no
longer occurs in it); when `max_recent` is at least 1 — which every
preceding `select` establishes — the chosen image is the back element of
the recent list; and at most one front element is trimmed, so the bound
`len(recent) <= max_recent` is preserved whenever it held before the call,
but is not re-established when `max_recent` dropped by more than one since
the recent list was filled. -/
theorem spec_c7 {I : Type} [DecidableEq I] (s : SmartState I) (w : I) :
    (smartUpdate s w).unused_wallpapers = s.unused_wallpapers.erase w ∧
    (s.unused_wallpapers.Nodup → w ∉ (smartUpdate s w).unused_wallpapers) ∧
    (1 ≤ s.max_recent → (smartUpdate s w).recent_wallpapers.getLast? = some w) ∧
    (s.recent_wallpapers.length ≤ s.max_recent →
      (smartUpdate s w).recent_wallpapers.length ≤ s.max_recent) := by
  refine ⟨rfl, fun hnd => hnd.not_mem_erase, fun hm => ?_, fun hlen => ?_⟩
  · exact trim_getLast _ w s.max_recent hm
  · exact trim_length _ w s.max_recent
      (Nat.le_trans (condErase_length_le s.recent_wallpapers w) hlen)

/-- Witness for C7's amended statement at a concrete state within its
cap. -/
theorem spec_c7_witness :
    4 ∉ (smartUpdate (⟨[4], [1], [], 2⟩ : SmartState Nat) 4).unused_wallpapers ∧
    (smartUpdate (⟨[4], [1], [], 2⟩ : SmartState Nat) 4).recent_wallpapers.getLast? = some 4 ∧
    (smartUpdate (⟨[4], [1], [], 2⟩ : SmartState Nat) 4).recent_wallpapers.length ≤ 2 :=
  ⟨(spec_c7 (⟨[4], [1], [], 2⟩ : SmartState Nat) 4).2.1 (by decide),
   (spec_c7 (⟨[4], [1], [], 2⟩ : SmartState Nat) 4).2.2.1 (by decide),
   (spec_c7 (⟨[4], [1], [], 2⟩ : SmartState Nat) 4).2.2.2 (by decide)⟩

/-- C8.  Evaluation of the override freeze at the failing input.  The
override itself works: on a store holding a record for `img`,
`override_classification(img, "light")` stores classification `"light"`
with `manual_override = true`, and on a store with no record for the path
it changes nothing.  But the in-app bulk re-analysis pass
(`WallpaperManager.analyze_wallpapers`) calls `analyze_directory` without
the store's existing metadata, so its override-preserving skip branch
never fires and the merged result replaces the overridden record with the
analyzer's fresh output (`manual_override` false) — while the same pass
with the existing metadata wired through, as `analyze_directory`'s own
docstring describes and `fast_analyze.py` does, preserves the overridden
record.  `needs_analysis` is consulted by no pass in the repository. -/
theorem spec_c8 :
    overrideClassification [("img", ⟨some "dark", false, some "h1"⟩)] "img" "light" =
      [("img", ⟨some "light", true, some "h1"⟩)] ∧
    overrideClassification [] "img" "light" = [] ∧
    (analyzeWallpapers ["img"] (fun _ => ⟨some "medium", false, some "h2"⟩)
        [("img", ⟨some "light", true, some "h1"⟩)]).lookup "img" =
      some ⟨some "medium", false, some "h2"⟩ ∧
    (analyzeDirectory ["img"] (some [("img", ⟨some "light", true, some "h1"⟩)])
        (fun _ => ⟨some "medium", false, some "h2"⟩)).lookup "img" =
      some ⟨some "light", true, some "h1"⟩ := by
  refine ⟨by decide, by decide, by decide, by decide⟩

/-- A list always has the same element set as itself. -/
theorem sameSet_refl {I : Type} [DecidableEq I] (l : List I) : sameSet l l = true := by
  simp [sameSet, List.all_eq_true]

/-- The empty list never has the same element set as a non-empty one. -/
theorem sameSet_nil_left {I : Type} [DecidableEq I] (l : List I) (h : l ≠ []) :
    sameSet ([] : List I) l = false := by
  cases l with
  | nil => exact absurd rfl h
  | cons x xs => simp [sameSet]

/-- The anti-repeat rotation permutes the queue. -/
theorem rotateIfEq_perm {I : Type} [DecidableEq I] (q : List I) (c : I) :
    (rotateIfEq q c).Perm q := by
  cases q with
  | nil => exact List.Perm.refl _
  | cons h t =>
    show (if h = c then t ++ [h] else h :: t).Perm (h :: t)
    split
    · exact List.perm_append_singleton h t
    · exact List.Perm.refl _

/-- A rebuilt queue is a permutation of the candidate list whenever the
shuffling function permutes. -/
theorem seqRebuildChanged_perm {I : Type} [DecidableEq I] (W : List I)
    (σ : List I → List I) (cur : Option I) (hσ : (σ W).Perm W) :
    (seqRebuildChanged W σ cur).Perm W := by
  unfold seqRebuildChanged
  cases cur with
  | none => exact hσ
  | some c => exact (rotateIfEq_perm (σ W) c).trans hσ

/-- With every element valid, the scan loop peeks the head and discards
nothing. -/
theorem popUntilValid_of_valid {I : Type} (valid : I → Bool) (l : List I)
    (hv : ∀ x ∈ l, valid x = true) : popUntilValid valid l = (l.head?, l) := by
  cases l with
  | nil => rfl
  | cons h t => simp [popUntilValid, hv h (List.mem_cons_self h t)]

/-- With a valid head, the scan loop returns it and discards nothing. -/
theorem popUntilValid_cons_valid {I : Type} (valid : I → Bool) (h : I) (t : List I)
    (hvalid : valid h = true) : popUntilValid valid (h :: t) = (some h, h :: t) := by
  simp [popUntilValid, hvalid]

/-- Sequential Shuffle `select` mid-cycle: with an unchanged candidate
list and a non-empty queue whose head is valid, it peeks the head and
changes nothing. -/
theorem seqSelect_steady {I : Type} [DecidableEq I] (valid : I → Bool) (W : List I)
    (hW : W ≠ []) (h : I) (t hist : List I) (cur : Option I) (σ : List I → List I)
    (hvalid : valid h = true) :
    seqSelect valid ⟨h :: t, hist, W⟩ W cur σ = (some h, ⟨h :: t, hist, W⟩) := by
  unfold seqSelect
  rw [if_neg hW]
  dsimp only
  rw [if_neg (not_not_intro (sameSet_refl W))]
  rw [if_neg (List.cons_ne_nil h t)]
  rw [popUntilValid_cons_valid valid h t hvalid]

/-- Sequential Shuffle `select` from reset: the cycle snapshot differs
from any non-empty candidate list, so the queue is rebuilt by a shuffle
(plus anti-repeat rotation) and scanned. -/
theorem seqSelect_fresh {I : Type} [DecidableEq I] (valid : I → Bool) (W : List I)
    (cur : Option I) (σ : List I → List I) (hW : W ≠ [])
    (hq : seqRebuildChanged W σ cur ≠ []) :
    seqSelect valid seqReset W cur σ =
      ((popUntilValid valid (seqRebuildChanged W σ cur)).1,
        ⟨(popUntilValid valid (seqRebuildChanged W σ cur)).2, [], W⟩) := by
  unfold seqSelect
  rw [if_neg hW]
  dsimp only [seqReset]
  simp only [sameSet_nil_left W hW, Bool.false_eq_true, not_false_eq_true, if_true]
  rw [if_neg hq]

/-- Running one `select` plus `update_tracking` per remaining queue entry
against an unchanged candidate list consumes the queue front to back,
returning exactly its entries in order. -/
theorem runSeq_steady {I : Type} [DecidableEq I] (valid : I → Bool) (W : List I)
    (hW : W ≠ []) :
    ∀ (steps : List ((List I → List I) × Option I)) (q hist : List I),
      steps.length = q.length → (∀ x ∈ q, valid x = true) →
      ∃ histf, runSeq valid W ⟨q, hist, W⟩ steps = some (q, ⟨[], histf, W⟩) := by
  intro steps
  induction steps with
  | nil =>
    intro q hist hlen _
    have hq : q = [] := by simpa using hlen.symm
    subst hq
    exact ⟨hist, rfl⟩
  | cons st rest ih =>
    intro q hist hlen hv
    cases q with
    | nil => simp at hlen
    | cons h t =>
      rw [runSeq]
      rw [seqSelect_steady valid W hW h t hist st.2 st.1 (hv h (List.mem_cons_self h t))]
      have herase : (h :: t).erase h = t := List.erase_cons_head h t
      have hrec := ih t (if h ∈ hist then hist else hist ++ [h])
        (by simpa using hlen) (fun x hx => hv x (List.mem_cons_of_mem h hx))
      obtain ⟨histf, hrec⟩ := hrec
      refine ⟨histf, ?_⟩
      dsimp only [seqUpdate]
      rw [herase, hrec]

/-- C3.  Sequential Shuffle full-cycle coverage: from reset, over a fixed
duplicate-free candidate list of size N with every candidate valid, N
consecutive successful `select` + `update_tracking` rounds (whatever the
per-call shuffling outcomes and current-wallpaper contexts) return a
permutation of the candidate list — each candidate exactly once before any
repeat. -/
theorem spec_c3 {I : Type} [DecidableEq I] (valid : I → Bool) (wallpapers : List I)
    (hne : wallpapers ≠ []) (hnd : wallpapers.Nodup)
    (hv : ∀ w ∈ wallpapers, valid w = true)
    (steps : List ((List I → List I) × Option I))
    (hlen : steps.length = wallpapers.length)
    (hperm : ∀ st ∈ steps, ∀ l : List I, (st.1 l).Perm l) :
    ∃ picks sf, runSeq valid wallpapers seqReset steps = some (picks, sf) ∧
      picks.Perm wallpapers := by
  cases steps with
  | nil =>
    cases wallpapers with
    | nil => exact absurd rfl hne
    | cons a b => simp at hlen
  | cons st rest =>
    have hq1perm : (seqRebuildChanged wallpapers st.1 st.2).Perm wallpapers :=
      seqRebuildChanged_perm wallpapers st.1 st.2
        (hperm st (List.mem_cons_self st rest) wallpapers)
    have hq1ne : seqRebuildChanged wallpapers st.1 st.2 ≠ [] := by
      intro h0
      have hl := hq1perm.length_eq
      rw [h0] at hl
      exact hne (List.length_eq_zero.mp hl.symm)
    obtain ⟨h, t1, hq1⟩ : ∃ h t1, seqRebuildChanged wallpapers st.1 st.2 = h :: t1 := by
      cases hq : seqRebuildChanged wallpapers st.1 st.2 with
      | nil => exact absurd hq hq1ne
      | cons a b => exact ⟨a, b, rfl⟩
    have hvq1 : ∀ x ∈ seqRebuildChanged wallpapers st.1 st.2, valid x = true :=
      fun x hx => hv x (hq1perm.subset hx)
    have hlent : rest.length = t1.length := by
      have hl := hq1perm.length_eq
      rw [hq1] at hl
      simp only [List.length_cons] at hl hlen ⊢
      omega
    obtain ⟨histf, hsteady⟩ := runSeq_steady valid wallpapers hne rest t1 [h] hlent
      (fun x hx => hvq1 x (by rw [hq1]; exact List.mem_cons_of_mem h hx))
    refine ⟨h :: t1, ⟨[], histf, wallpapers⟩, ?_, ?_⟩
    · rw [runSeq]
      rw [seqSelect_fresh valid wallpapers st.2 st.1 hne hq1ne]
      rw [hq1]
      rw [popUntilValid_cons_valid valid h t1 (hvq1 h (by rw [hq1]; exact List.mem_cons_self h t1))]
      dsimp only [seqUpdate]
      rw [List.erase_cons_head]
      simp only [List.not_mem_nil, if_false, List.nil_append]
      rw [hsteady]
    · rw [← hq1]
      exact hq1perm

/-- Witness for C3: three candidates, identity shuffles, three rounds. -/
theorem spec_c3_witness :
    ∃ picks sf,
      runSeq (fun _ => true) [0, 1, 2] seqReset
        (List.replicate 3 ((id : List Nat → List Nat), (none : Option Nat))) =
        some (picks, sf) ∧ picks.Perm [0, 1, 2] :=
  spec_c3 (fun _ => true) [0, 1, 2] (by decide) (by decide) (fun w _ => rfl)
    (List.replicate 3 ((id : List Nat → List Nat), (none : Option Nat))) rfl
    (fun st hst l => by rw [List.eq_of_mem_replicate hst]; exact List.Perm.refl l)

/-- A modulo-indexed default-get on a non-empty list is a member: the
embedding of `random.choice` always returns an element of its pool. -/
theorem getD_mod_mem {I : Type} (l : List I) (hl : l ≠ []) (i : Nat) (d : I) :
    l.getD (i % l.length) d ∈ l := by
  have hlen : 0 < l.length := List.length_pos.mpr hl
  have hmod : i % l.length < l.length := Nat.mod_lt i hlen
  rw [List.getD_eq_getElem l d hmod]
  exact l.getElem_mem hmod

/-- Python set equality of two lists gives mutual inclusion. -/
theorem sameSet_subset {I : Type} [DecidableEq I] (a b : List I) (h : sameSet a b = true) :
    a ⊆ b ∧ b ⊆ a := by
  unfold sameSet at h
  rw [Bool.and_eq_true, List.all_eq_true, List.all_eq_true] at h
  exact ⟨fun x hx => by simpa using h.1 x hx, fun x hx => by simpa using h.2 x hx⟩

/-- In a duplicate-free list, dropping the members of `recent` removes at
most `recent.length` elements. -/
theorem filter_notmem_length {I : Type} [DecidableEq I] (l recent : List I) (hl : l.Nodup) :
    l.length ≤ (l.filter (fun w => decide (w ∉ recent))).length + recent.length := by
  have hsplit := List.length_eq_length_filter_add (fun w => decide (w ∉ recent)) (l := l)
  have hmem : (l.filter (fun w => !decide (w ∉ recent))).length ≤ recent.length := by
    refine List.Subperm.length_le (List.subperm_of_subset (hl.filter _) ?_)
    intro x hx
    have := List.of_mem_filter hx
    simpa using this
  omega

/-- A duplicate-free pool strictly longer than the recent list survives
the recent-filter with at least one element. -/
theorem filter_avail_ne_nil {I : Type} [DecidableEq I] (U recent : List I) (hU : U.Nodup)
    (hlen : recent.length + 1 ≤ U.length) :
    U.filter (fun w => decide (w ∉ recent)) ≠ [] := by
  have := filter_notmem_length U recent hU
  intro h0
  rw [h0] at this
  simp at this
  omega

/-- With a percentage of at most 100, the recent cap never exceeds the
candidate count. -/
theorem smartMaxRecent_le {p n : Nat} (hp : p ≤ 100) (hn : 1 ≤ n) :
    smartMaxRecent p n ≤ n := by
  unfold smartMaxRecent
  have h1 : n * p / 100 ≤ n := by
    calc n * p / 100 ≤ n * 100 / 100 := Nat.div_le_div_right (Nat.mul_le_mul_left n hp)
    _ = n := Nat.mul_div_cancel n (by omega)
  omega

/-- Reinitializing the unused pool from a duplicate-free candidate list
keeps it duplicate-free. -/
theorem smartReinit_nodup {I : Type} [DecidableEq I] (W : List I) (cur : Option I)
    (hW : W.Nodup) : (smartReinit W cur).Nodup := by
  cases cur with
  | none => exact hW
  | some c => exact hW.erase c

/-- The reinitialized unused pool is contained in the candidate list. -/
theorem smartReinit_subset {I : Type} [DecidableEq I] (W : List I) (cur : Option I) :
    smartReinit W cur ⊆ W := by
  cases cur with
  | none => exact fun x hx => hx
  | some c => exact fun x hx => List.mem_of_mem_erase hx

/-- Reinitialization drops at most one element (the current wallpaper)
from the candidate list. -/
theorem smartReinit_length {I : Type} [DecidableEq I] (W : List I) (cur : Option I) :
    W.length ≤ (smartReinit W cur).length + 1 := by
  cases cur with
  | none =>
    show W.length ≤ W.length + 1
    omega
  | some c =>
    show W.length ≤ (W.erase c).length + 1
    by_cases hc : c ∈ W
    · rw [List.length_erase_of_mem hc]
      have : 0 < W.length := List.length_pos.mpr (List.ne_nil_of_mem hc)
      omega
    · rw [List.erase_of_not_mem hc]
      omega

/-- The deterministic prefix of Smart Random's `select`, under the
invariant that the unused pool is a duplicate-free subset of the
duplicate-free candidate list and the recent list is at least two shorter
than the candidate list: the pool `random.choice` draws from is the
(reinitialized or kept) unused pool minus the recent list, it is
non-empty — so neither of the two emptiness fallbacks fires — and the
state records that pool and the recomputed cap. -/
theorem smartSelectStep_spec {I : Type} [DecidableEq I] (p : Nat) (s : SmartState I)
    (W : List I) (cur : Option I) (hW : W.Nodup)
    (hu : s.unused_wallpapers.Nodup) (husub : s.unused_wallpapers ⊆ W)
    (hcount : s.recent_wallpapers.length + 2 ≤ W.length) :
    ∃ U : List I,
      smartSelectStep p s W cur =
        (U.filter (fun w => decide (w ∉ s.recent_wallpapers)),
         { s with unused_wallpapers := U, max_recent := smartMaxRecent p W.length }) ∧
      U.Nodup ∧ U ⊆ W ∧
      U.filter (fun w => decide (w ∉ s.recent_wallpapers)) ≠ [] := by
  by_cases hre : s.unused_wallpapers = [] ∨ ¬ sameSet s.unused_wallpapers W = true
  · have hUnd := smartReinit_nodup W cur hW
    have hUsub := smartReinit_subset W cur
    have hUlen : s.recent_wallpapers.length + 1 ≤ (smartReinit W cur).length := by
      have := smartReinit_length W cur
      omega
    have hne := filter_avail_ne_nil (smartReinit W cur) s.recent_wallpapers hUnd hUlen
    refine ⟨smartReinit W cur, ?_, hUnd, hUsub, hne⟩
    unfold smartSelectStep
    rw [if_pos hre]
    dsimp only
    rw [if_neg hne, if_neg hne]
  · push_neg at hre
    obtain ⟨hne0, hsame⟩ := hre
    have hWsub : W ⊆ s.unused_wallpapers := (sameSet_subset _ _ hsame).2
    have hUlen : s.recent_wallpapers.length + 1 ≤ s.unused_wallpapers.length := by
      have hlW : W.length ≤ s.unused_wallpapers.length :=
        List.Subperm.length_le (List.subperm_of_subset hW hWsub)
      omega
    have hne := filter_avail_ne_nil s.unused_wallpapers s.recent_wallpapers hu hUlen
    refine ⟨s.unused_wallpapers, ?_, hu, husub, hne⟩
    unfold smartSelectStep
    rw [if_neg (by push_neg; exact ⟨hne0, by simp [hsame]⟩)]
    dsimp only
    rw [if_neg hne, if_neg hne]

/-- Smart Random's `select` with every candidate valid: one draw from the
available pool is returned immediately, whatever the retry fuel. -/
theorem smartSelect_eq_of_valid {I : Type} [DecidableEq I] [Inhabited I] (p : Nat)
    (valid : I → Bool) (hv : ∀ x, valid x = true) (fuel : Nat) (idx : Nat → Nat)
    (s : SmartState I) (W : List I) (cur : Option I) (hW : W ≠ [])
    (hne : (smartSelectStep p s W cur).1 ≠ []) :
    smartSelect p valid fuel idx s W cur =
      (some ((smartSelectStep p s W cur).1.getD
          (idx 0 % (smartSelectStep p s W cur).1.length) default),
        (smartSelectStep p s W cur).2) := by
  rw [smartSelect]
  rw [if_neg hW]
  dsimp only
  rw [if_neg hne]
  rw [if_pos (hv _)]

/-- Invariant run of Smart Random from any state whose unused pool is a
duplicate-free subset of the duplicate-free candidate list and whose
recent list is duplicate-free: as long as the number of steps plus the
recent length stays below the recent cap, every `select` succeeds with a
pick outside the recent list, the recent list accumulates the picks
without trimming, and the picks extend the recent list without
duplicates. -/
theorem runSmart_spec {I : Type} [DecidableEq I] [Inhabited I] (p : Nat) (hp : p ≤ 100)
    (W : List I) (hW : W.Nodup) (valid : I → Bool) (hv : ∀ x, valid x = true) :
    ∀ (steps : List (Nat × Option I)) (s : SmartState I),
      s.unused_wallpapers.Nodup → s.unused_wallpapers ⊆ W →
      s.recent_wallpapers.Nodup →
      steps.length + s.recent_wallpapers.length < smartMaxRecent p W.length →
      ∃ picks sf, runSmart p valid W s steps = some (picks, sf) ∧
        (s.recent_wallpapers ++ picks).Nodup := by
  intro steps
  induction steps with
  | nil =>
    intro s _ _ hrecnd _
    exact ⟨[], s, rfl, by simpa using hrecnd⟩
  | cons st rest ih =>
    intro s hund husub hrecnd hk
    have hMge : s.recent_wallpapers.length + 2 ≤ smartMaxRecent p W.length := by
      simp only [List.length_cons] at hk
      omega
    have hNpos : 1 ≤ W.length := by
      by_contra h0
      have hW0 : W.length = 0 := by omega
      rw [hW0] at hMge
      simp [smartMaxRecent] at hMge
    have hMN : smartMaxRecent p W.length ≤ W.length := smartMaxRecent_le hp hNpos
    have hcount : s.recent_wallpapers.length + 2 ≤ W.length := le_trans hMge hMN
    have hWne : W ≠ [] := by
      intro h0
      rw [h0] at hNpos
      simp at hNpos
    obtain ⟨U, hstep, hUnd, hUsub, havail⟩ :=
      smartSelectStep_spec p s W st.2 hW hund husub hcount
    have hne1 : (smartSelectStep p s W st.2).1 ≠ [] := by
      rw [hstep]
      exact havail
    have hsel := smartSelect_eq_of_valid p valid hv 0 (fun _ => st.1) s W st.2 hWne hne1
    rw [hstep] at hsel
    dsimp only at hsel
    have hchosen_mem : (U.filter (fun w => decide (w ∉ s.recent_wallpapers))).getD
        (st.1 % (U.filter (fun w => decide (w ∉ s.recent_wallpapers))).length) default ∈
        U.filter (fun w => decide (w ∉ s.recent_wallpapers)) :=
      getD_mod_mem _ havail st.1 default
    set chosen := (U.filter (fun w => decide (w ∉ s.recent_wallpapers))).getD
      (st.1 % (U.filter (fun w => decide (w ∉ s.recent_wallpapers))).length) default
      with hchosendef
    have hchosen_not_rec : chosen ∉ s.recent_wallpapers := by
      have := (List.mem_filter.mp hchosen_mem).2
      simpa using this
    have hchosenU : chosen ∈ U := (List.mem_filter.mp hchosen_mem).1
    have hrec2nd : (s.recent_wallpapers ++ [chosen]).Nodup := by
      simp [List.nodup_append, hrecnd, hchosen_not_rec]
    have hupd : smartUpdate
        { s with unused_wallpapers := U, max_recent := smartMaxRecent p W.length } chosen =
        { unused_wallpapers := U.erase chosen,
          recent_wallpapers := s.recent_wallpapers ++ [chosen],
          session_history := if chosen ∈ s.session_history then s.session_history
            else s.session_history ++ [chosen],
          max_recent := smartMaxRecent p W.length } := by
      unfold smartUpdate
      dsimp only
      rw [if_neg hchosen_not_rec]
      rw [if_neg (by simp only [List.length_append, List.length_cons, List.length_nil]; omega)]
    obtain ⟨picks, sf, hrun, hnd2⟩ := ih
      { unused_wallpapers := U.erase chosen,
        recent_wallpapers := s.recent_wallpapers ++ [chosen],
        session_history := if chosen ∈ s.session_history then s.session_history
          else s.session_history ++ [chosen],
        max_recent := smartMaxRecent p W.length }
      (hUnd.erase chosen)
      (fun x hx => hUsub (List.mem_of_mem_erase hx))
      hrec2nd
      (by
        simp only [List.length_append, List.length_cons, List.length_nil]
        simp only [List.length_cons] at hk
        omega)
    refine ⟨chosen :: picks, sf, ?_, ?_⟩
    · rw [runSmart]
      rw [hsel]
      dsimp only
      rw [hupd, hrun]
    · simpa [List.append_assoc] using hnd2

/-- C2 counterexample.  The claim fails for avoid percentages above 100:
with two candidates and `avoid_recent_percentage = 200`, `max_recent` is
`max(1, 2*200//100) = 4`, yet the third of `k = 3 < 4` consecutive
successful selections from reset can repeat the first pick (trace
0, 1, 0): once both candidates are in the recent list, `select` falls back
to choosing from the whole unused pool. -/
theorem spec_c2_counterexample :
    (runSmart 200 (fun _ => true) [0, 1] smartReset
        [(0, none), (0, none), (0, none)]).map Prod.fst = some [0, 1, 0] ∧
    ¬ ([0, 1, 0] : List Nat).Nodup ∧
    3 < smartMaxRecent 200 2 := by
  refine ⟨by decide, by decide, by decide⟩

/-- C2 as amended.  For a fixed duplicate-free candidate set, every
candidate valid, and `avoid_recent_percentage = p` with `p ≤ 100` (the
configuration UI only offers 10-50): any `k < max_recent` consecutive
successful selections from reset, each followed by `update_tracking` of
the returned image, yield pairwise-distinct picks, where
`max_recent = max(1, floor(N*p/100))` — whatever the per-call random
choices and current-wallpaper contexts. -/
theorem spec_c2 {I : Type} [DecidableEq I] [Inhabited I] (p : Nat) (hp : p ≤ 100)
    (valid : I → Bool) (hv : ∀ x, valid x = true) (wallpapers : List I)
    (hnd : wallpapers.Nodup) (steps : List (Nat × Option I))
    (hk : steps.length < smartMaxRecent p wallpapers.length)
    (picks : List I) (sf : SmartState I)
    (hrun : runSmart p valid wallpapers smartReset steps = some (picks, sf)) :
    picks.Nodup := by
  obtain ⟨picks', sf', hrun', hnd'⟩ :=
    runSmart_spec p hp wallpapers hnd valid hv steps smartReset
      List.nodup_nil (fun x hx => absurd hx (List.not_mem_nil x))
      List.nodup_nil (by simpa [smartReset] using hk)
  rw [hrun] at hrun'
  have hpq : picks = picks' := by
    have h1 : (picks, sf) = (picks', sf') := Option.some.inj hrun'
    exact congrArg Prod.fst h1
  subst hpq
  simpa [smartReset] using hnd'

/-- Witness for C2: eight candidates, p = 50 (cap 4), three rounds from
reset with first-index draws yield the distinct picks 0, 1, 2. -/
theorem spec_c2_witness : ([0, 1, 2] : List Nat).Nodup :=
  spec_c2 50 (by decide) (fun _ => true) (fun _ => rfl) [0, 1, 2, 3, 4, 5, 6, 7]
    (by decide) [(0, none), (0, none), (0, none)] (by decide) [0, 1, 2]
    ⟨[0, 1, 3, 4, 5, 6, 7], [0, 1, 2], [0, 1, 2], 4⟩ (by decide)
